import Mathlib

/-!
Verification development for the DICOM manual-labeling tool
(`label_manualv1.py`, class `DICOMLabeler`).

The program is shallowly embedded: each Python method becomes a Lean
function on an explicit session-state record.  Machine images are
modelled as functions from indices to integer class codes; polygon
vertices and contour points are exact rationals (the Python floats for
points produced by the program are half-integers or user clicks, so ℚ
is a faithful carrier).

Library calls are embedded by their semantics:
* `skimage.draw.polygon(r, c, shape)` — bounding-box scan with the
  classic even-odd (PNPOLY) crossing test per pixel centre;
* `skimage.measure.find_contours(binary, 0.5)` — marching squares on
  the 0/1 mask with the default low-vertex connectivity; on a binary
  image at level 0.5 all interpolated crossings are edge midpoints;
* `skimage.measure.approximate_polygon` is kept as a function
  parameter `approx` (its floating-point internals are irrelevant to
  every claim below: only whether and with which tolerance it is
  called matters);
* `numpy.unique` — sorted list of distinct values.
-/

namespace DICOMLabeler

/-- A planar point with exact rational coordinates.  Session polygons
store points as `(x, y)`; marching-squares contours store them as
`(row, col)`, exactly as the numpy arrays in the source do. -/
abbrev Pt : Type := ℚ × ℚ

/-- A 2-D label image, `row → col → class code` (the in-range part of a
numpy `int32` array slice). -/
abbrev Mask : Type := ℕ → ℕ → ℤ

/-- A 3-D label volume, `slice → row → col → class code`
(`self.slice_labels`). -/
abbrev LabelVolume : Type := ℕ → ℕ → ℕ → ℤ

/-! ## Rasterisation: `skimage.draw.polygon` (used by `save_current_slice`) -/

/-- Even-odd crossing-number point-in-polygon test (the PNPOLY test used
by `skimage.draw.polygon`): vertices `(xs, ys)`, query point `(x, y)`;
edge `i` joins vertex `i` to vertex `i-1` (wrapping). -/
def point_in_polygon (xs ys : List ℚ) (x y : ℚ) : Bool :=
  match xs, ys with
  | x0 :: xr, y0 :: yr =>
    let vs : List Pt := (x0 :: xr).zip (y0 :: yr)
    let prevs : List Pt := ((x0 :: xr).getLastD x0, (y0 :: yr).getLastD y0) :: vs
    (vs.zip prevs).foldl (fun acc vp =>
      let xi := vp.1.1
      let yi := vp.1.2
      let xj := vp.2.1
      let yj := vp.2.2
      if (decide (y < yi) != decide (y < yj))
          && decide (x < (xj - xi) * (y - yi) / (yj - yi) + xi)
      then !acc else acc) false
  | _, _ => false

/-- Whether pixel centre `(ri, ci)` is produced by
`skimage.draw.polygon(poly[:,1], poly[:,0], (H, W))` for a polygon whose
vertex list `pts` is in `(x, y)` order, as in `save_current_slice`: the
row coordinates are the `y` components and the column coordinates the
`x` components; the scan covers the polygon's bounding box clipped to
the image shape, and a pixel is kept iff the PNPOLY test succeeds. -/
def inFill (pts : List Pt) (H W : ℕ) (ri ci : ℕ) : Bool :=
  match pts with
  | [] => false
  | p :: rest =>
    let rs := (p :: rest).map Prod.snd
    let cs := (p :: rest).map Prod.fst
    let rmin := rs.foldl min p.2
    let rmax := rs.foldl max p.2
    let cmin := cs.foldl min p.1
    let cmax := cs.foldl max p.1
    let minr : ℤ := max 0 ⌊rmin⌋
    let maxr : ℤ := min ((H : ℤ) - 1) ⌈rmax⌉
    let minc : ℤ := max 0 ⌊cmin⌋
    let maxc : ℤ := min ((W : ℤ) - 1) ⌈cmax⌉
    decide (minr ≤ (ri : ℤ)) && decide ((ri : ℤ) ≤ maxr)
      && decide (minc ≤ (ci : ℤ)) && decide ((ci : ℤ) ≤ maxc)
      && point_in_polygon cs rs (ci : ℚ) (ri : ℚ)

/-- Value of the label array built by `save_current_slice` at pixel
`(ri, ci)`: starting from the all-zero array, each `(polygon, label)`
pair in list order overwrites the pixels of its filled region with its
label (`label_array[rr, cc] = label`). -/
def encodePixel (polys : List (List Pt × ℤ)) (H W : ℕ) (ri ci : ℕ) : ℤ :=
  polys.foldl (fun acc pl => if inFill pl.1 H W ri ci then pl.2 else acc) 0

/-! ## Contour tracing: `skimage.measure.find_contours(binary, 0.5)`
(used by `load_slice_data`) -/

/-- Marching-squares segments for the cell whose top-left pixel is
`(r, c)`.  Corner values are the binary mask at the four pixels; on a
0/1 image at level 0.5 every interpolated crossing is the midpoint of a
cell edge.  Segment directions follow skimage's case table with the
default low-vertex connectivity for the two saddle cases. -/
def cellSegments (mask : ℕ → ℕ → Bool) (r c : ℕ) : List (Pt × Pt) :=
  let ul := mask r c
  let ur := mask r (c + 1)
  let ll := mask (r + 1) c
  let lr := mask (r + 1) (c + 1)
  let rq : ℚ := (r : ℚ)
  let cq : ℚ := (c : ℚ)
  let top : Pt := (rq, cq + 1/2)
  let bot : Pt := (rq + 1, cq + 1/2)
  let lft : Pt := (rq + 1/2, cq)
  let rgt : Pt := (rq + 1/2, cq + 1)
  let sqCase : ℕ :=
    (if ul then 1 else 0) + (if ur then 2 else 0)
      + (if ll then 4 else 0) + (if lr then 8 else 0)
  match sqCase with
  | 1 => [(top, lft)]
  | 2 => [(rgt, top)]
  | 3 => [(rgt, lft)]
  | 4 => [(lft, bot)]
  | 5 => [(top, bot)]
  | 6 => [(rgt, top), (lft, bot)]
  | 7 => [(rgt, bot)]
  | 8 => [(bot, rgt)]
  | 9 => [(top, lft), (bot, rgt)]
  | 10 => [(bot, top)]
  | 11 => [(bot, lft)]
  | 12 => [(lft, rgt)]
  | 13 => [(top, rgt)]
  | 14 => [(lft, top)]
  | _ => []

/-- All marching-squares segments of an `H × W` binary image, in the
row-major cell scan order skimage uses. -/
def allSegments (mask : ℕ → ℕ → Bool) (H W : ℕ) : List (Pt × Pt) :=
  (List.range (H - 1)).flatMap fun r =>
    (List.range (W - 1)).flatMap fun c => cellSegments mask r c

/-- Remove the first segment starting at point `p`, returning it and
the remaining segments. -/
def extractSeg (p : Pt) : List (Pt × Pt) → Option (Pt × List (Pt × Pt))
  | [] => none
  | s :: rest =>
    if s.1 = p then some (s.2, rest)
    else match extractSeg p rest with
      | none => none
      | some (q, rest2) => some (q, s :: rest2)

/-- Follow a chain of segments forward from endpoint `e`, consuming
matching segments; `acc` holds the points collected so far in reverse.
A closed contour ends when no segment starts at the current endpoint
(the loop's opening segment was consumed first), so the first point is
repeated as the last, exactly as skimage returns closed contours. -/
def followChain : ℕ → List (Pt × Pt) → Pt → List Pt → List Pt × List (Pt × Pt)
  | 0, segs, _, acc => (acc.reverse, segs)
  | fuel + 1, segs, e, acc =>
    match extractSeg e segs with
    | none => (acc.reverse, segs)
    | some (q, segs2) => followChain fuel segs2 q (q :: acc)

/-- Assemble the segment soup into contours: repeatedly start from the
first remaining segment and follow the chain. -/
def assembleContours : ℕ → List (Pt × Pt) → List (List Pt)
  | 0, _ => []
  | _ + 1, [] => []
  | fuel + 1, s :: rest =>
    let fc := followChain fuel rest s.2 [s.2, s.1]
    fc.1 :: assembleContours fuel fc.2

/-- The contours of a binary image at level 0.5
(`skimage.measure.find_contours(binary, 0.5)`): each contour is a list
of `(row, col)` points; closed contours repeat their first point at the
end. -/
def find_contours (mask : ℕ → ℕ → Bool) (H W : ℕ) : List (List Pt) :=
  let segs := allSegments mask H W
  assembleContours (2 * segs.length + 2) segs

/-! ## `numpy.unique` and the decode step (`load_slice_data`) -/

/-- Insert a value into a strictly sorted list, keeping it strictly
sorted (duplicates dropped). -/
def insertSorted (x : ℤ) : List ℤ → List ℤ
  | [] => [x]
  | y :: ys =>
    if x < y then x :: y :: ys
    else if x = y then y :: ys
    else y :: insertSorted x ys

/-- All values of the in-range part of an `H × W` label image. -/
def maskValues (mask : Mask) (H W : ℕ) : List ℤ :=
  (List.range H).flatMap fun r => (List.range W).map fun c => mask r c

/-- `numpy.unique(label_array)`: the distinct values of the image,
in ascending order. -/
def uniqueVals (mask : Mask) (H W : ℕ) : List ℤ :=
  (maskValues mask H W).foldl (fun acc v => insertSorted v acc) []

/-- The `(x, y)` reordering `load_slice_data` applies to a traced
`(row, col)` contour: `poly_points = [(pt[1], pt[0]) for pt in contour]`. -/
def xyOrder (contour : List Pt) : List Pt :=
  contour.map fun pt => (pt.2, pt.1)

/-- The polygon list rebuilt by `load_slice_data` from one slice of the
label volume: for each nonzero value `lab` of the image (ascending, per
`numpy.unique`), trace the contours of `mask == lab`; a contour with
more than 100 points is simplified by `approx` (standing for
`skimage.measure.approximate_polygon`) with tolerance 1; points are
emitted in `(x, y)` order. -/
def load_polygons (approx : List Pt → ℚ → List Pt) (mask : Mask) (H W : ℕ) :
    List (List Pt × ℤ) :=
  (uniqueVals mask H W).flatMap fun lab =>
    if lab = 0 then []
    else
      (find_contours (fun r c => decide (mask r c = lab)) H W).map fun contour =>
        let ct := if 100 < contour.length then approx contour 1 else contour
        (xyOrder ct, lab)

/-! ## The annotation session (`DICOMLabeler` state and methods) -/

/-- The mutable fields of a `DICOMLabeler` instance, together with the
immutable shape `(S, H, W)` of `data_zyx`.  `sliceLabels` is
`self.slice_labels`, `polygons` the active slice's labeled polygon
list, `currentPolygon` the in-progress polygon (points in `(x, y)`
order), `waitingForLabel` the `waiting_for_label` flag. -/
structure LabelerState where
  S : ℕ
  H : ℕ
  W : ℕ
  sliceLabels : LabelVolume
  currentSlice : ℕ
  polygons : List (List Pt × ℤ)
  currentPolygon : List Pt
  waitingForLabel : Bool

/-- The class registry `self.bone_colors`:
`code → (display color, bone name)`. -/
def bone_colors : List (ℤ × String × String) :=
  [(1, "red", "Femur"), (2, "blue", "Tibia"), (3, "green", "Fibula"),
   (4, "yellow", "Patella"), (5, "purple", "Other Bone 1"),
   (6, "orange", "Other Bone 2")]

/-- The spec's session states: `Browsing` (no in-progress polygon),
`Drawing` (in-progress polygon nonempty), `AwaitingLabel`
(`waiting_for_label` set). -/
inductive SessionState where
  | Browsing
  | Drawing
  | AwaitingLabel
deriving DecidableEq

/-- Map a concrete labeler state to the spec's session state. -/
def sessionState (st : LabelerState) : SessionState :=
  if st.waitingForLabel then .AwaitingLabel
  else if st.currentPolygon = [] then .Browsing
  else .Drawing

/-- `save_current_slice`: rasterise the current polygon list into a
fresh label array and store it at the active slice index
(`self.slice_labels[self.current_slice] = label_array`). -/
def save_current_slice (st : LabelerState) : LabelerState :=
  { st with sliceLabels := fun i r c =>
      if i = st.currentSlice then encodePixel st.polygons st.H st.W r c
      else st.sliceLabels i r c }

/-- `load_slice_data`: replace the polygon list by the decode of the
active slice's label image.  The in-progress polygon is not touched. -/
def load_slice_data (approx : List Pt → ℚ → List Pt) (st : LabelerState) :
    LabelerState :=
  { st with polygons :=
      load_polygons approx (st.sliceLabels st.currentSlice) st.H st.W }

/-- `prev_slice`: if not at the first slice, encode the active slice,
decrement the index, and decode the new slice.  The method has no
`waiting_for_label` guard. -/
def prev_slice (approx : List Pt → ℚ → List Pt) (st : LabelerState) :
    LabelerState :=
  if 0 < st.currentSlice then
    let st1 := save_current_slice st
    load_slice_data approx { st1 with currentSlice := st1.currentSlice - 1 }
  else st

/-- `next_slice`: if not at the last slice, encode the active slice,
increment the index, and decode the new slice.  The method has no
`waiting_for_label` guard. -/
def next_slice (approx : List Pt → ℚ → List Pt) (st : LabelerState) :
    LabelerState :=
  if st.currentSlice < st.S - 1 then
    let st1 := save_current_slice st
    load_slice_data approx { st1 with currentSlice := st1.currentSlice + 1 }
  else st

/-- Lines 143–149 of `initiate_finish_polygon`, after the modal dialog
returns `res` (`None` when cancelled): if the code is a registry key,
append `(current_polygon, label)` to the polygon list and clear the
in-progress polygon — otherwise both are left as they are; in either
case clear `waiting_for_label`. -/
def assign_label (res : Option ℤ) (st : LabelerState) : LabelerState :=
  let st1 :=
    match res with
    | some lab =>
      if (bone_colors.lookup lab).isSome then
        { st with polygons := st.polygons ++ [(st.currentPolygon, lab)],
                  currentPolygon := [] }
      else st
    | none => st
  { st1 with waitingForLabel := false }

/-- Lines 120–130 of `initiate_finish_polygon`: the guards (already
waiting, or fewer than 3 points — then report and change nothing) and
the transition into the waiting state before the dialog opens. -/
def finish_request (st : LabelerState) : LabelerState :=
  if st.waitingForLabel then st
  else if st.currentPolygon.length < 3 then st
  else { st with waitingForLabel := true }

/-- `initiate_finish_polygon`, whole method: guards, then the blocking
dialog whose result is `res`, then the assignment step. -/
def initiate_finish_polygon (res : Option ℤ) (st : LabelerState) :
    LabelerState :=
  if st.waitingForLabel then st
  else if st.currentPolygon.length < 3 then st
  else assign_label res (finish_request st)

/-- The keys `on_key_press` distinguishes. -/
inductive Key where
  | delete
  | backspace
  | c
  | enter
  | other
deriving DecidableEq

/-- `on_click`: ignored while waiting for a label or outside the image
axes; a left click (button 1) appends a point, any other button starts
the finish flow. -/
def on_click (res : Option ℤ) (button : ℕ) (inAxes : Bool) (pos : Pt)
    (st : LabelerState) : LabelerState :=
  if st.waitingForLabel then st
  else if !inAxes then st
  else if button = 1 then
    { st with currentPolygon := st.currentPolygon ++ [pos] }
  else initiate_finish_polygon res st

/-- `on_key_press`: ignored while waiting for a label; delete/backspace
pop the last point (if any), `c` clears the in-progress polygon, enter
starts the finish flow. -/
def on_key_press (res : Option ℤ) (k : Key) (st : LabelerState) :
    LabelerState :=
  if st.waitingForLabel then st
  else
    match k with
    | .delete | .backspace =>
      if st.currentPolygon ≠ [] then
        { st with currentPolygon := st.currentPolygon.dropLast }
      else st
    | .c => { st with currentPolygon := [] }
    | .enter => initiate_finish_polygon res st
    | .other => st

/-- `save_labels`: encode the active slice in place, then hand the full
label volume plus the registry's color and name tables to persistence
(`np.save` and the json metadata).  Returns the new state and the
persisted payload. -/
def save_labels (st : LabelerState) :
    LabelerState × (LabelVolume × List (ℤ × String) × List (ℤ × String)) :=
  let st1 := save_current_slice st
  (st1, (st1.sliceLabels,
         bone_colors.map fun kv => (kv.1, kv.2.1),
         bone_colors.map fun kv => (kv.1, kv.2.2)))

/-! ## Concrete instances used by witnesses and counterexamples -/

/-- A concrete polyline simplifier instance (identity).  Every claim
below that takes a simplifier either holds for all of them or is
evaluated on contours of at most 100 points, where the simplifier is
never invoked. -/
def approxId : List Pt → ℚ → List Pt := fun ct _ => ct

/-- A 3×3 label image with a single pixel of class 1 at `(1, 1)`. -/
def onePixelMask : Mask := fun r c => if r = 1 ∧ c = 1 then 1 else 0

/-- A 5×5 label image: class 1 on the 3×3 block of rows and columns
1–3. -/
def blockMask : Mask :=
  fun r c => if 1 ≤ r ∧ r ≤ 3 ∧ 1 ≤ c ∧ c ≤ 3 then 1 else 0

/-- The block image with an unlabeled hole at its centre `(2, 2)`. -/
def holedMask : Mask :=
  fun r c => if 1 ≤ r ∧ r ≤ 3 ∧ 1 ≤ c ∧ c ≤ 3 ∧ ¬(r = 2 ∧ c = 2) then 1
             else 0

/-- A two-slice label volume whose slice 0 is `holedMask` and whose
slice 1 is empty. -/
def vol3 : LabelVolume := fun i r c => if i = 0 then holedMask r c else 0

/-- Session on `vol3` (shape 2×5×5), browsing slice 0, whose polygon
list is exactly the decode of slice 0's label image. -/
def st3 : LabelerState :=
  ⟨2, 5, 5, vol3, 0, load_polygons approxId holedMask 5 5, [], false⟩

/-- Session awaiting a label for a finished 3-point polygon. -/
def stA : LabelerState :=
  ⟨1, 4, 4, fun _ _ _ => 0, 0, [], [(0, 0), (2, 0), (0, 2)], true⟩

/-- Session drawing (one point placed) on the middle slice of an empty
3×3×3 volume. -/
def stB : LabelerState :=
  ⟨3, 3, 3, fun _ _ _ => 0, 1, [], [(1/2, 1/2)], false⟩

/-- Session awaiting a label on the middle slice of an empty 3×3×3
volume. -/
def stC : LabelerState :=
  ⟨3, 3, 3, fun _ _ _ => 0, 1, [], [(1, 1), (2, 1), (1, 2)], true⟩

/-- Browsing session with one committed square polygon on slice 0 of an
empty 2×6×6 volume. -/
def stD : LabelerState :=
  ⟨2, 6, 6, fun _ _ _ => 0, 0, [([(1, 1), (1, 4), (4, 4), (4, 1)], 2)], [],
   false⟩

/-- Axis-aligned square with corners `(0,0)` and `(4,4)` (in `(x, y)`
order). -/
def sqP1 : List Pt := [(0, 0), (4, 0), (4, 4), (0, 4)]

/-- Axis-aligned square with corners `(2,2)` and `(6,6)`; overlaps
`sqP1` on `[2,4]²`. -/
def sqP2 : List Pt := [(2, 2), (6, 2), (6, 6), (2, 6)]

/-! ## Specification predicates -/

/-- Effect a navigation step is supposed to have (and, except for the
discarding of the in-progress polygon, has): the slice index becomes
`newIdx`; the in-progress polygon and waiting flag are untouched; the
old active slice's label image now holds the encode of the old polygon
list; every other slice of the volume is untouched; the polygon list is
the decode of the new slice's (untouched) label image. -/
def navigationEffect (approx : List Pt → ℚ → List Pt) (st st2 : LabelerState)
    (newIdx : ℕ) : Prop :=
  st2.currentSlice = newIdx ∧
  st2.currentPolygon = st.currentPolygon ∧
  st2.waitingForLabel = st.waitingForLabel ∧
  (∀ r c, st2.sliceLabels st.currentSlice r c
      = encodePixel st.polygons st.H st.W r c) ∧
  (∀ i, i ≠ st.currentSlice → st2.sliceLabels i = st.sliceLabels i) ∧
  st2.polygons = load_polygons approx (st.sliceLabels newIdx) st.H st.W

/-- Effect of `save_labels` on a state: the active slice is encoded in
place; slice index, polygon lists and in-progress polygon are
untouched; the persisted payload is the full (just-encoded) label
volume with the registry's color and name tables. -/
def saveEffect (st : LabelerState) : Prop :=
  (save_labels st).1.currentSlice = st.currentSlice ∧
  (save_labels st).1.currentPolygon = st.currentPolygon ∧
  (save_labels st).1.polygons = st.polygons ∧
  (save_labels st).1.waitingForLabel = st.waitingForLabel ∧
  (∀ r c, (save_labels st).1.sliceLabels st.currentSlice r c
      = encodePixel st.polygons st.H st.W r c) ∧
  (∀ i, i ≠ st.currentSlice →
      (save_labels st).1.sliceLabels i = st.sliceLabels i) ∧
  (save_labels st).2.1 = (save_labels st).1.sliceLabels ∧
  (save_labels st).2.2.1 = bone_colors.map (fun kv => (kv.1, kv.2.1)) ∧
  (save_labels st).2.2.2 = bone_colors.map (fun kv => (kv.1, kv.2.2))

/-! ## Theorems -/

/-- C5: if a labeled polygon set ends with two overlapping polygons,
`(P1, class 1)` followed in iteration order by `(P2, class 2)`, then at
every pixel of the overlap region (a pixel rasterised into both fills)
the encoded mask holds class 2 — the later pair wins. -/
theorem C5_overlap_last_writer_wins (pre : List (List Pt × ℤ))
    (P1 P2 : List Pt) (H W ri ci : ℕ)
    (h1 : inFill P1 H W ri ci = true) (h2 : inFill P2 H W ri ci = true) :
    encodePixel (pre ++ [(P1, 1), (P2, 2)]) H W ri ci = 2 := by
  simp [encodePixel, List.foldl_append, h1, h2]

/-- C5 witness: two concrete overlapping squares, evaluated at the
overlap pixel `(3, 3)` of a 10×10 image. -/
theorem C5_witness :
    inFill sqP1 10 10 3 3 = true ∧ inFill sqP2 10 10 3 3 = true ∧
    encodePixel [(sqP1, 1), (sqP2, 2)] 10 10 3 3 = 2 :=
  ⟨by with_unfolding_all decide, by with_unfolding_all decide,
   C5_overlap_last_writer_wins [] sqP1 sqP2 10 10 3 3 (by with_unfolding_all decide) (by with_unfolding_all decide)⟩

/-- C7: in state `Drawing`, a finish request with fewer than 3 points
is a complete no-op (the state record is unchanged, so the session
stays in `Drawing` and no labeled polygon is added), while with 3 or
more points (no collinearity or geometry check is made) the request
moves the session into the waiting state `AwaitingLabel` before the
dialog opens. -/
theorem C7_finish_guard (st : LabelerState) (res : Option ℤ)
    (hD : sessionState st = .Drawing) :
    (st.currentPolygon.length < 3 →
      initiate_finish_polygon res st = st ∧ finish_request st = st) ∧
    (3 ≤ st.currentPolygon.length →
      finish_request st = { st with waitingForLabel := true } ∧
      sessionState (finish_request st) = .AwaitingLabel ∧
      initiate_finish_polygon res st = assign_label res (finish_request st)) := by
  have hw : st.waitingForLabel = false := by
    cases hb : st.waitingForLabel
    · rfl
    · simp [sessionState, hb] at hD
  constructor
  · intro hlen
    constructor
    · simp [initiate_finish_polygon, hw, hlen]
    · simp [finish_request, hw, hlen]
  · intro hlen
    refine ⟨?_, ?_, ?_⟩
    · simp [finish_request, hw, Nat.not_lt.mpr hlen]
    · simp [finish_request, sessionState, hw, Nat.not_lt.mpr hlen]
    · simp [initiate_finish_polygon, hw, Nat.not_lt.mpr hlen]

/-- C7 witness: a drawing session with a 2-point in-progress polygon
(the guard branch) — the theorem is applied at it. -/
theorem C7_witness :
    sessionState ⟨1, 4, 4, fun _ _ _ => 0, 0, [], [(0, 0), (2, 0)], false⟩
      = .Drawing ∧
    ((⟨1, 4, 4, fun _ _ _ => 0, 0, [], [(0, 0), (2, 0)],
        false⟩ : LabelerState).currentPolygon.length < 3 →
      initiate_finish_polygon (some 1)
          ⟨1, 4, 4, fun _ _ _ => 0, 0, [], [(0, 0), (2, 0)], false⟩
        = ⟨1, 4, 4, fun _ _ _ => 0, 0, [], [(0, 0), (2, 0)], false⟩) :=
  ⟨by with_unfolding_all decide, fun h =>
    ((C7_finish_guard _ (some 1) (by with_unfolding_all decide)).1 h).1⟩

/-- C6: in any non-waiting session state, `save_labels` encodes the
active slice in place without touching the slice index, the polygon
lists or any other slice of the volume, and hands the full label
volume and both registry tables to persistence. -/
theorem C6_save_encodes_and_persists (st : LabelerState)
    (_hw : st.waitingForLabel = false) : saveEffect st := by
  refine ⟨rfl, rfl, rfl, rfl, ?_, ?_, rfl, rfl, rfl⟩
  · intro r c
    simp [save_labels, save_current_slice]
  · intro i hi
    funext r c
    simp [save_labels, save_current_slice, hi]

/-- C6 witness: the theorem applied at a browsing session with one
committed polygon. -/
theorem C6_witness : stD.waitingForLabel = false ∧ saveEffect stD :=
  ⟨rfl, C6_save_encodes_and_persists stD rfl⟩

/-- C4 counterexample: a session that is awaiting a label (the flag is
set) on the middle slice of a 3-slice volume; `next_slice` is not a
no-op there — it moves the active slice index from 1 to 2, because
neither `prev_slice` nor `next_slice` checks `waiting_for_label`. -/
theorem C4_counterexample :
    sessionState stC = .AwaitingLabel ∧ stC.currentSlice = 1 ∧
    (next_slice approxId stC).currentSlice = 2 := by
  refine ⟨by with_unfolding_all decide, by with_unfolding_all decide, by with_unfolding_all decide⟩

/-- C4 amended: while `waiting_for_label` is set, the canvas click and
key-press handlers are no-ops (they carry the guard), but navigation
itself is unguarded in the session code — it is blocked only by the
modal label dialog holding the event loop. -/
theorem C4_click_and_key_blocked (st : LabelerState) (res : Option ℤ)
    (button : ℕ) (inAxes : Bool) (pos : Pt) (k : Key)
    (hw : st.waitingForLabel = true) :
    on_click res button inAxes pos st = st ∧ on_key_press res k st = st := by
  constructor
  · simp [on_click, hw]
  · simp [on_key_press, hw]

/-- C4 witness: the guarded handlers applied at the awaiting session
`stC` (a left click on the canvas and an enter key press). -/
theorem C4_witness :
    stC.waitingForLabel = true ∧
    (on_click (some 1) 1 true (1, 1) stC = stC ∧
      on_key_press (some 1) .enter stC = stC) :=
  ⟨rfl, C4_click_and_key_blocked stC (some 1) 1 true (1, 1) .enter rfl⟩

/-- C1 counterexample: in the awaiting session `stA` (in-progress
polygon of 3 points), assigning the unrecognised class code 99 does
NOT discard the in-progress polygon and does NOT return the session to
`Browsing`: the polygon is kept verbatim and the session drops back to
`Drawing`. -/
theorem C1_counterexample :
    sessionState stA = .AwaitingLabel ∧
    (bone_colors.lookup 99).isSome = false ∧
    (assign_label (some 99) stA).currentPolygon = stA.currentPolygon ∧
    (assign_label (some 99) stA).currentPolygon ≠ [] ∧
    sessionState (assign_label (some 99) stA) ≠ .Browsing ∧
    sessionState (assign_label (some 99) stA) = .Drawing := by
  refine ⟨rfl, by with_unfolding_all decide, rfl, by with_unfolding_all decide,
    by with_unfolding_all decide, by with_unfolding_all decide⟩

/-- C1 amended: when the class code is unrecognised or the prompt is
cancelled, the labeled polygon list and the label volume are unchanged
and the waiting flag is cleared — but the in-progress polygon is
retained unchanged (available for a retry), so the session returns to
`Drawing`, not `Browsing`, whenever that polygon is nonempty. -/
theorem C1_unrecognized_code_keeps_polygon (st : LabelerState)
    (res : Option ℤ) (_hw : st.waitingForLabel = true)
    (hres : ∀ lab, res = some lab → bone_colors.lookup lab = none) :
    (assign_label res st).currentPolygon = st.currentPolygon ∧
    (assign_label res st).polygons = st.polygons ∧
    (assign_label res st).sliceLabels = st.sliceLabels ∧
    (assign_label res st).waitingForLabel = false := by
  cases res with
  | none => exact ⟨rfl, rfl, rfl, rfl⟩
  | some lab =>
    have h := hres lab rfl
    refine ⟨?_, ?_, ?_, ?_⟩ <;> simp [assign_label, h]

/-- C1 witness: the amended theorem applied at `stA` with the
unrecognised code 99. -/
theorem C1_witness :
    stA.waitingForLabel = true ∧
    ((assign_label (some 99) stA).currentPolygon = stA.currentPolygon ∧
      (assign_label (some 99) stA).polygons = stA.polygons ∧
      (assign_label (some 99) stA).sliceLabels = stA.sliceLabels ∧
      (assign_label (some 99) stA).waitingForLabel = false) :=
  ⟨rfl, C1_unrecognized_code_keeps_polygon stA (some 99) rfl
    (by with_unfolding_all decide)⟩

/-- C2 counterexample: the drawing session `stB` (one in-progress
point, middle slice of three).  `next_slice` moves the index to 2 as
claimed, but the leftover in-progress polygon is NOT discarded — it
survives the navigation, so the session is in `Drawing`, not
`Browsing`, afterwards. -/
theorem C2_counterexample :
    sessionState stB ≠ .AwaitingLabel ∧
    stB.currentSlice = 1 ∧ stB.currentSlice < stB.S - 1 ∧
    (next_slice approxId stB).currentSlice = 2 ∧
    (next_slice approxId stB).currentPolygon = [(1/2, 1/2)] ∧
    (next_slice approxId stB).currentPolygon ≠ [] ∧
    sessionState (next_slice approxId stB) = .Drawing := by
  refine ⟨by with_unfolding_all decide, rfl, by with_unfolding_all decide,
    by with_unfolding_all decide, by with_unfolding_all decide,
    by with_unfolding_all decide, by with_unfolding_all decide⟩

/-- C2 amended: away from the boundaries, `prev_slice` and
`next_slice` change the slice index by exactly ∓/±1, encode the old
active slice into the label volume, leave every other slice untouched,
and decode the new slice into the polygon list — but the in-progress
polygon is carried over unchanged rather than discarded, and the
waiting flag is untouched. -/
theorem C2_navigation_effect (approx : List Pt → ℚ → List Pt)
    (st : LabelerState) (_hw : st.waitingForLabel = false) :
    (0 < st.currentSlice →
      navigationEffect approx st (prev_slice approx st) (st.currentSlice - 1)) ∧
    (st.currentSlice < st.S - 1 →
      navigationEffect approx st (next_slice approx st) (st.currentSlice + 1)) := by
  constructor
  · intro h
    have hne : st.currentSlice - 1 ≠ st.currentSlice := by omega
    refine ⟨?_, ?_, ?_, ?_, ?_, ?_⟩
    · simp [prev_slice, h, load_slice_data, save_current_slice]
    · simp [prev_slice, h, load_slice_data, save_current_slice]
    · simp [prev_slice, h, load_slice_data, save_current_slice]
    · intro r c
      simp [prev_slice, h, load_slice_data, save_current_slice]
    · intro i hi
      funext r c
      simp [prev_slice, h, load_slice_data, save_current_slice, hi]
    · simp [prev_slice, h, load_slice_data, save_current_slice, hne]
  · intro h
    have hne : st.currentSlice + 1 ≠ st.currentSlice := by omega
    refine ⟨?_, ?_, ?_, ?_, ?_, ?_⟩
    · simp [next_slice, h, load_slice_data, save_current_slice]
    · simp [next_slice, h, load_slice_data, save_current_slice]
    · simp [next_slice, h, load_slice_data, save_current_slice]
    · intro r c
      simp [next_slice, h, load_slice_data, save_current_slice]
    · intro i hi
      funext r c
      simp [next_slice, h, load_slice_data, save_current_slice, hi]
    · simp [next_slice, h, load_slice_data, save_current_slice, hne]

/-- C2 witness: the amended theorem applied at `stB` in the `next`
direction. -/
theorem C2_witness :
    stB.waitingForLabel = false ∧ stB.currentSlice < stB.S - 1 ∧
    navigationEffect approxId stB (next_slice approxId stB)
      (stB.currentSlice + 1) :=
  ⟨rfl, by with_unfolding_all decide,
    (C2_navigation_effect approxId stB rfl).2 (by with_unfolding_all decide)⟩

/-- Membership in the decoded polygon list: a pair arises from a
nonzero value of the image and one of its traced contours, simplified
exactly when longer than 100 points. -/
theorem mem_load_polygons {a : List Pt → ℚ → List Pt} {mask : Mask}
    {H W : ℕ} {p : List Pt × ℤ} :
    p ∈ load_polygons a mask H W ↔
    ∃ lab, lab ∈ uniqueVals mask H W ∧ lab ≠ 0 ∧
      ∃ ct, ct ∈ find_contours (fun r c => decide (mask r c = lab)) H W ∧
        p = (xyOrder (if 100 < ct.length then a ct 1 else ct), lab) := by
  unfold load_polygons
  rw [List.mem_flatMap]
  constructor
  · rintro ⟨lab, hlab, hp⟩
    by_cases h0 : lab = 0
    · rw [if_pos h0] at hp
      exact absurd hp (List.not_mem_nil p)
    · rw [if_neg h0, List.mem_map] at hp
      obtain ⟨ct, hct, hpe⟩ := hp
      exact ⟨lab, hlab, h0, ct, hct, hpe.symm⟩
  · rintro ⟨lab, hlab, h0, ct, hct, hpe⟩
    refine ⟨lab, hlab, ?_⟩
    rw [if_neg h0, List.mem_map]
    exact ⟨ct, hct, hpe.symm⟩

/-- C9: no pair of a decoded labeled polygon set carries class code 0 —
the background value is skipped by the decode loop, for every label
image and every simplifier. -/
theorem C9_decode_never_zero (a : List Pt → ℚ → List Pt) (mask : Mask)
    (H W : ℕ) (p : List Pt × ℤ) (hp : p ∈ load_polygons a mask H W) :
    p.2 ≠ 0 := by
  obtain ⟨lab, _, h0, ct, _, hpe⟩ := mem_load_polygons.mp hp
  rw [hpe]
  exact h0

/-- C9 witness: the single decoded pair of the one-pixel class-1 image
has a nonzero class code. -/
theorem C9_witness :
    (xyOrder [(1, 1/2), (1/2, 1), (1, 3/2), (3/2, 1), (1, 1/2)], 1)
      ∈ load_polygons approxId onePixelMask 3 3 ∧
    ((xyOrder [(1, 1/2), (1/2, 1), (1, 3/2), (3/2, 1), (1, 1/2)],
      (1 : ℤ)) : List Pt × ℤ).2 ≠ 0 :=
  ⟨by with_unfolding_all decide,
   C9_decode_never_zero approxId onePixelMask 3 3 _
    (by with_unfolding_all decide)⟩

/-- C8: a pair belongs to the decode of a label image exactly when it
comes from a nonzero image value and one of that value's traced
contours, where a contour of at most 100 points is emitted verbatim
(only reordered to `(x, y)`), and a contour of more than 100 points is
emitted through the polyline simplifier called with tolerance 1. -/
theorem C8_simplified_iff_over_100 (a : List Pt → ℚ → List Pt)
    (mask : Mask) (H W : ℕ) (p : List Pt × ℤ) :
    p ∈ load_polygons a mask H W ↔
    ∃ lab, lab ∈ uniqueVals mask H W ∧ lab ≠ 0 ∧
      ∃ ct, ct ∈ find_contours (fun r c => decide (mask r c = lab)) H W ∧
        (ct.length ≤ 100 → p = (xyOrder ct, lab)) ∧
        (100 < ct.length → p = (xyOrder (a ct 1), lab)) := by
  rw [mem_load_polygons]
  constructor
  · rintro ⟨lab, hlab, h0, ct, hct, hpe⟩
    refine ⟨lab, hlab, h0, ct, hct, ?_, ?_⟩
    · intro hle
      rwa [if_neg (Nat.not_lt.mpr hle)] at hpe
    · intro hgt
      rwa [if_pos hgt] at hpe
  · rintro ⟨lab, hlab, h0, ct, hct, hle, hgt⟩
    refine ⟨lab, hlab, h0, ct, hct, ?_⟩
    by_cases h : 100 < ct.length
    · rw [if_pos h]
      exact hgt h
    · rw [if_neg h]
      exact hle (Nat.not_lt.mp h)

/-- Membership after `insertSorted`: the inserted value or an old
member. -/
theorem mem_insertSorted {z x : ℤ} {l : List ℤ} :
    z ∈ insertSorted x l ↔ z = x ∨ z ∈ l := by
  induction l with
  | nil => simp [insertSorted]
  | cons y ys ih =>
    unfold insertSorted
    split_ifs with h1 h2
    · simp [List.mem_cons]
    · subst h2
      simp [List.mem_cons]
    · simp [List.mem_cons, ih]
      tauto

/-- `insertSorted` preserves strict sortedness. -/
theorem sorted_insertSorted (x : ℤ) (l : List ℤ)
    (h : l.Sorted (· < ·)) : (insertSorted x l).Sorted (· < ·) := by
  induction l with
  | nil => simp [insertSorted]
  | cons y ys ih =>
    rw [List.sorted_cons] at h
    obtain ⟨hy, hys⟩ := h
    unfold insertSorted
    split_ifs with h1 h2
    · rw [List.sorted_cons]
      refine ⟨?_, by rw [List.sorted_cons]; exact ⟨hy, hys⟩⟩
      intro b hb
      rcases List.mem_cons.mp hb with rfl | hb
      · exact h1
      · exact lt_trans h1 (hy b hb)
    · rw [List.sorted_cons]
      exact ⟨hy, hys⟩
    · rw [List.sorted_cons]
      refine ⟨?_, ih hys⟩
      intro b hb
      rcases mem_insertSorted.mp hb with rfl | hb
      · omega
      · exact hy b hb

/-- Folding `insertSorted` over any value list keeps the accumulator
strictly sorted. -/
theorem sorted_foldl_insertSorted (l : List ℤ) (acc : List ℤ)
    (h : acc.Sorted (· < ·)) :
    (l.foldl (fun a v => insertSorted v a) acc).Sorted (· < ·) := by
  induction l generalizing acc with
  | nil => exact h
  | cons v vs ih => exact ih _ (sorted_insertSorted v acc h)

/-- `numpy.unique` output is strictly ascending. -/
theorem uniqueVals_sorted (mask : Mask) (H W : ℕ) :
    (uniqueVals mask H W).Sorted (· < ·) :=
  sorted_foldl_insertSorted _ _ List.sorted_nil

/-- If every pair produced for a value carries that value as its class
code, flat-mapping over a strictly ascending value list yields a class
code sequence that is ascending (equal codes only within one value's
group). -/
theorem sorted_flatMap_snd (labs : List ℤ) (f : ℤ → List (List Pt × ℤ))
    (hf : ∀ lab p, p ∈ f lab → p.2 = lab) (h : labs.Sorted (· < ·)) :
    ((labs.flatMap f).map Prod.snd).Sorted (· ≤ ·) := by
  induction labs with
  | nil => simp [List.Sorted]
  | cons lab labs ih =>
    rw [List.sorted_cons] at h
    obtain ⟨hlab, hlabs⟩ := h
    rw [List.flatMap_cons, List.map_append]
    rw [List.Sorted, List.pairwise_append]
    refine ⟨?_, ih hlabs, ?_⟩
    · apply List.pairwise_of_forall_mem_list
      intro a ha b hb
      rw [List.mem_map] at ha hb
      obtain ⟨p, hp, rfl⟩ := ha
      obtain ⟨q, hq, rfl⟩ := hb
      rw [hf lab p hp, hf lab q hq]
    · intro a ha b hb
      rw [List.mem_map] at ha hb
      obtain ⟨p, hp, rfl⟩ := ha
      obtain ⟨q, hq, rfl⟩ := hb
      rw [List.mem_flatMap] at hq
      obtain ⟨lab2, hlab2, hq⟩ := hq
      rw [hf lab p hp, hf lab2 q hq]
      exact le_of_lt (hlab lab2 hlab2)

/-- The last-writer fold either returns its accumulator or the class
code of some member polygon whose fill contains the pixel. -/
theorem encodeFold_eq_acc_or_mem (H W ri ci : ℕ)
    (polys : List (List Pt × ℤ)) (acc : ℤ) :
    polys.foldl (fun a pl => if inFill pl.1 H W ri ci then pl.2 else a) acc
        = acc ∨
    ∃ p ∈ polys, inFill p.1 H W ri ci = true ∧
      polys.foldl (fun a pl => if inFill pl.1 H W ri ci then pl.2 else a) acc
        = p.2 := by
  induction polys generalizing acc with
  | nil => exact Or.inl rfl
  | cons q qs ih =>
    rw [List.foldl_cons]
    by_cases hq : inFill q.1 H W ri ci = true
    · rw [if_pos hq]
      rcases ih q.2 with h | ⟨p, hp, hfill, heq⟩
      · exact Or.inr ⟨q, List.mem_cons_self q qs, hq, h⟩
      · exact Or.inr ⟨p, List.mem_cons_of_mem q hp, hfill, heq⟩
    · rw [if_neg hq]
      rcases ih acc with h | ⟨p, hp, hfill, heq⟩
      · exact Or.inl h
      · exact Or.inr ⟨p, List.mem_cons_of_mem q hp, hfill, heq⟩

/-- Over a polygon list whose class codes ascend, the last-writer fold
ends at a value at least as large as the code of any member whose fill
contains the pixel. -/
theorem le_encodeFold_of_sorted (H W ri ci : ℕ) (q : List Pt × ℤ)
    (hf : inFill q.1 H W ri ci = true) :
    ∀ (polys : List (List Pt × ℤ)) (acc : ℤ),
      (polys.map Prod.snd).Sorted (· ≤ ·) → q ∈ polys →
      q.2 ≤ polys.foldl
        (fun a pl => if inFill pl.1 H W ri ci then pl.2 else a) acc := by
  intro polys
  induction polys with
  | nil =>
    intro acc _ hq
    exact absurd hq (List.not_mem_nil q)
  | cons p ps ih =>
    intro acc hs hq
    rw [List.map_cons, List.sorted_cons] at hs
    obtain ⟨hle, hs2⟩ := hs
    rw [List.foldl_cons]
    rcases List.mem_cons.mp hq with rfl | hq2
    · rw [if_pos hf]
      rcases encodeFold_eq_acc_or_mem H W ri ci ps q.2 with h | ⟨p2, hp2, _, heq⟩
      · rw [h]
      · rw [heq]
        exact hle p2.2 (List.mem_map_of_mem Prod.snd hp2)
    · exact ih _ hs2 hq2

/-- C10: the decoded polygon list is grouped by class code in ascending
order (the class code sequence along the list is sorted, classes being
enumerated by ascending `numpy.unique` value); consequently re-encoding
a decoded list resolves every overlap in favour of the numerically
largest covering class code, whatever order the user drew in. -/
theorem C10_decode_grouped_ascending (a : List Pt → ℚ → List Pt)
    (mask : Mask) (H W ri ci : ℕ) :
    ((load_polygons a mask H W).map Prod.snd).Sorted (· ≤ ·) ∧
    (∀ q ∈ load_polygons a mask H W, inFill q.1 H W ri ci = true →
      q.2 ≤ encodePixel (load_polygons a mask H W) H W ri ci) := by
  have hsorted :
      ((load_polygons a mask H W).map Prod.snd).Sorted (· ≤ ·) := by
    unfold load_polygons
    apply sorted_flatMap_snd _ _ _ (uniqueVals_sorted mask H W)
    intro lab p hp
    by_cases h0 : lab = 0
    · rw [if_pos h0] at hp
      exact absurd hp (List.not_mem_nil p)
    · rw [if_neg h0, List.mem_map] at hp
      obtain ⟨ct, _, hpe⟩ := hp
      rw [← hpe]
  refine ⟨hsorted, ?_⟩
  intro q hq hfq
  exact le_encodeFold_of_sorted H W ri ci q hfq _ 0 hsorted hq

set_option maxRecDepth 4000 in
/-- C3 counterexample: the session `st3` browses slice 0, whose polygon
list is exactly the decode of that slice's label image (a labeled block
with an unlabeled hole; every traced contour is far below the 100-point
simplification threshold, so the decode is verbatim and the claim's
tolerance allowance is vacuous).  Navigating forward and back with no
edits does NOT leave the slice's label volume entry unchanged: the hole
pixel `(2, 2)` flips from 0 to 1, because `find_contours` also returns
the hole's boundary and the encode step fills it. -/
theorem C3_counterexample :
    st3.polygons = load_polygons approxId (st3.sliceLabels 0) 5 5 ∧
    (∀ p ∈ st3.polygons, p.1.length ≤ 100) ∧
    st3.sliceLabels 0 2 2 = 0 ∧
    (prev_slice approxId (next_slice approxId st3)).sliceLabels 0 2 2 = 1 := by
  refine ⟨rfl, by with_unfolding_all decide, rfl, by with_unfolding_all decide⟩

set_option maxRecDepth 4000 in
/-- C3 amended: Decode's `(x, y)` point order does match Encode's
convention — re-encoding a decoded contour hands the rasteriser exactly
the traced row coordinates as rows and column coordinates as columns —
and re-encoding a decoded hole-free slice reproduces the mask exactly
when no contour exceeds the simplification threshold (shown on the 3×3
block); but when a labeled region encloses an unlabeled hole the round
trip fills the hole with the region's class, as shown on `holedMask`
where exactly the hole pixel changes. -/
theorem C3_roundtrip_convention_and_holes :
    (∀ ct : List Pt,
      (xyOrder ct).map Prod.snd = ct.map Prod.fst ∧
      (xyOrder ct).map Prod.fst = ct.map Prod.snd) ∧
    (∀ r, r < 5 → ∀ c, c < 5 →
      encodePixel (load_polygons approxId blockMask 5 5) 5 5 r c
        = blockMask r c) ∧
    (∀ r, r < 5 → ∀ c, c < 5 →
      encodePixel (load_polygons approxId holedMask 5 5) 5 5 r c
        = if r = 2 ∧ c = 2 then 1 else holedMask r c) := by
  refine ⟨?_, by with_unfolding_all decide, by with_unfolding_all decide⟩
  intro ct
  refine ⟨?_, ?_⟩ <;> simp [xyOrder, List.map_map]

end DICOMLabeler
